import Mathlib

set_option linter.unusedSectionVars false

/-!
Verification of the thread-art planner (`src/ts/thread-computer.ts`).

The TypeScript source is shallowly embedded below. JavaScript numbers are
modelled by an arbitrary linear ordered field with a floor (`ℚ` when a
statement must be evaluated, `ℝ` where the code uses π, cos and sin).
Mutable state (`ThreadComputer`'s fields) is passed explicitly as a
`State` record; `Math.random()` is an explicit stream of naturals; the
browser's canvas line rasterization (`drawThreadOnHiddenCanvas`) is an
abstract function parameter `draw`; fallible operations return `Option`.
-/

namespace ThreadComputer

variable {α : Type} [LinearOrderedField α] [FloorRing α]

/-- `const MIN_SAFE_NUMBER = -9007199254740991`. -/
def MIN_SAFE_NUMBER : α := -9007199254740991

/-- `const LINE_OPACITY = 0.512 / 8`. -/
def LINE_OPACITY : α := 0.512 / 8

/-- `clamp(x, min, max)` from the source. -/
def clamp {β : Type} [LinearOrder β] (x mn mx : β) : β :=
  if x < mn then mn else if x > mx then mx else x

/-- `mix(a, b, x) = a * (1 - x) + b * x`. -/
def mix (a b x : α) : α := a * (1 - x) + b * x

/-- `randomItem(list)`: `null` for an empty list, otherwise the entry at the
random index `Math.floor(Math.random() * list.length)`; the random draw is
modelled by the natural `k`, reduced into range by `% length`. -/
def randomItem {β : Type} (list : List β) (k : ℕ) : Option β :=
  if h : list.length = 0 then none
  else some (list.get ⟨k % list.length, Nat.mod_lt k (Nat.pos_of_ne_zero h)⟩)

/-- `IPoint`. -/
structure IPoint (α : Type) where
  x : α
  y : α

/-- `IPeg`; circle pegs additionally carry their placement `angle`
(`IPegCircle`), modelled as a defaulted extra field, meaningful only for
circular layouts. -/
structure IPeg (α : Type) where
  x : α
  y : α
  angle : α

/-- `IThread`. -/
structure IThread (α : Type) where
  peg1 : IPeg α
  peg2 : IPeg α

/-- The hidden canvas's CPU-visible state: its dimensions and the flattened
RGBA array `hiddenCanvasData`, modelled as a function from byte index to
value. -/
structure Canvas (α : Type) where
  width : ℕ
  height : ℕ
  data : ℤ → α

/-- `sampleCanvasPixel(pixelX, pixelY)`: the scalar average of the three
color channels at `base = 4 * (pixelX + pixelY * width)`. -/
def sampleCanvasPixel (c : Canvas α) (pixelX pixelY : ℤ) : α :=
  let base := 4 * (pixelX + pixelY * (c.width : ℤ))
  (c.data base + c.data (base + 1) + c.data (base + 2)) / 3

/-- JavaScript's `x % 1`: the fractional part toward zero (the remainder
keeps the dividend's sign). -/
def jsMod1 (x : α) : α := x - (if x < 0 then (⌈x⌉ : α) else (⌊x⌋ : α))

/-- `sampleCanvasData(coords)`: bilinear interpolation of the four grid
cells around `coords`, each clamped to the grid bounds. -/
def sampleCanvasData (c : Canvas α) (coords : IPoint α) : α :=
  let minX := clamp ⌊coords.x⌋ 0 ((c.width : ℤ) - 1)
  let maxX := clamp ⌈coords.x⌉ 0 ((c.width : ℤ) - 1)
  let minY := clamp ⌊coords.y⌋ 0 ((c.height : ℤ) - 1)
  let maxY := clamp ⌈coords.y⌉ 0 ((c.height : ℤ) - 1)
  let topLeft := sampleCanvasPixel c minX minY
  let topRight := sampleCanvasPixel c maxX minY
  let bottomLeft := sampleCanvasPixel c minX maxY
  let bottomRight := sampleCanvasPixel c maxX maxY
  let fractX := jsMod1 coords.x
  let top := mix topLeft topRight fractX
  let bottom := mix bottomLeft bottomRight fractX
  let fractY := jsMod1 coords.y
  mix top bottom fractY

/-- Search upward from `n` for the least `m` with `q ≤ m ^ 2`, with enough
fuel; executable counterpart of `Math.ceil(Math.sqrt q)`. -/
def sqrtCeilAux (q : α) : ℕ → ℕ → ℕ
  | 0, n => n
  | fuel + 1, n => if q ≤ (n : α) ^ 2 then n else sqrtCeilAux q fuel (n + 1)

/-- `Math.ceil(Math.sqrt q)`: the least natural `n` with `q ≤ n ^ 2`
(see `sqrtCeil_eq_ceil_sqrt` below for the bridge to `⌈Real.sqrt q⌉₊`). -/
def sqrtCeil (q : α) : ℕ := sqrtCeilAux q (⌈q⌉₊ + 1) 0

/-- `const nbSamples = Math.ceil(distance)` where
`distance = Math.sqrt(dX * dX + dY * dY)` in `computeThreadPotential`. -/
def nbSamples (peg1 peg2 : IPeg α) : ℕ :=
  sqrtCeil ((peg2.x - peg1.x) ^ 2 + (peg2.y - peg1.y) ^ 2)

/-- The sample point of iteration `iSample` of `computeThreadPotential`:
`peg1 + (peg2 - peg1) * r` with `r = (iSample + 1) / (nbSamples + 1)`. -/
def samplePoint (peg1 peg2 : IPeg α) (n iSample : ℕ) : IPoint α :=
  let r : α := ((iSample : α) + 1) / ((n : α) + 1)
  ⟨peg1.x + (peg2.x - peg1.x) * r, peg1.y + (peg2.y - peg1.y) * r⟩

/-- The `squaredError` accumulator of `computeThreadPotential` after the
first `k` of the `n` loop iterations: each iteration adds
`contribution = 127 - (imageValue + 0.5 * LINE_OPACITY * 255)`. -/
def squaredErrorAux (c : Canvas α) (peg1 peg2 : IPeg α) (n : ℕ) : ℕ → α
  | 0 => 0
  | k + 1 => squaredErrorAux c peg1 peg2 n k +
      (127 - (sampleCanvasData c (samplePoint peg1 peg2 n k) + 0.5 * LINE_OPACITY * 255))

/-- `computeThreadPotential(peg1, peg2)`: the accumulated contributions
divided by the sample count. -/
def computeThreadPotential (c : Canvas α) (peg1 peg2 : IPeg α) : α :=
  squaredErrorAux c peg1 peg2 (nbSamples peg1 peg2) (nbSamples peg1 peg2) /
    ((nbSamples peg1 peg2 : ℕ) : α)

theorem le_sq_ceil_succ (q : α) : q ≤ ((⌈q⌉₊ + 1 : ℕ) : α) ^ 2 := by
  have h1 : q ≤ (⌈q⌉₊ : α) := Nat.le_ceil q
  have h2 : (⌈q⌉₊ : α) ≤ ((⌈q⌉₊ + 1 : ℕ) : α) ^ 2 := by
    have : (⌈q⌉₊ : ℕ) ≤ (⌈q⌉₊ + 1) ^ 2 := by nlinarith [Nat.zero_le ⌈q⌉₊]
    exact_mod_cast this
  exact h1.trans h2

theorem exists_nat_sq_bound (q : α) : ∃ n : ℕ, q ≤ (n : α) ^ 2 :=
  ⟨⌈q⌉₊ + 1, le_sq_ceil_succ q⟩

theorem sqrtCeilAux_eq_of {q : α} {t : ℕ} (ht : q ≤ (t : α) ^ 2)
    (hmin : ∀ m : ℕ, m < t → ¬ q ≤ (m : α) ^ 2) :
    ∀ fuel n, n ≤ t → t ≤ n + fuel → sqrtCeilAux q fuel n = t := by
  intro fuel
  induction fuel with
  | zero =>
    intro n h1 h2
    have : n = t := by omega
    simp [sqrtCeilAux, this]
  | succ fuel ih =>
    intro n h1 h2
    by_cases hn : q ≤ (n : α) ^ 2
    · have hnlt : ¬ n < t := fun hlt => hmin n hlt hn
      have he : n = t := by omega
      rw [sqrtCeilAux, if_pos hn, he]
    · have hne : n ≠ t := fun he => hn (he ▸ ht)
      have : n + 1 ≤ t := by omega
      rw [sqrtCeilAux, if_neg hn]
      exact ih (n + 1) this (by omega)

theorem sqrtCeil_eq_of {q : α} {t : ℕ} (ht : q ≤ (t : α) ^ 2)
    (hmin : ∀ m : ℕ, m < t → ¬ q ≤ (m : α) ^ 2) : sqrtCeil q = t := by
  have hbound : t ≤ ⌈q⌉₊ + 1 := by
    by_contra h
    exact hmin (⌈q⌉₊ + 1) (by omega) (le_sq_ceil_succ q)
  exact sqrtCeilAux_eq_of ht hmin (⌈q⌉₊ + 1) 0 (Nat.zero_le t) (by omega)

/-- The executable `sqrtCeil` agrees with `Math.ceil(Math.sqrt q)` read
literally over the reals. -/
theorem sqrtCeil_eq_ceil_sqrt (q : ℝ) (hq : 0 ≤ q) :
    sqrtCeil q = ⌈Real.sqrt q⌉₊ := by
  apply sqrtCeil_eq_of
  · have h1 : Real.sqrt q ≤ (⌈Real.sqrt q⌉₊ : ℝ) := Nat.le_ceil _
    calc q = Real.sqrt q ^ 2 := (Real.sq_sqrt hq).symm
      _ ≤ (⌈Real.sqrt q⌉₊ : ℝ) ^ 2 := by
          have h0 : (0 : ℝ) ≤ Real.sqrt q := Real.sqrt_nonneg q
          nlinarith
  · intro m hm hle
    have : Real.sqrt q ≤ (m : ℝ) :=
      (Real.sqrt_le_left (by positivity)).mpr hle
    exact absurd (Nat.ceil_le.mpr this) (by omega)

theorem one_le_sqrtCeil {q : α} (hq : 0 < q) : 1 ≤ sqrtCeil q := by
  have hfind := exists_nat_sq_bound q
  rw [sqrtCeil_eq_of (t := Nat.find hfind) (Nat.find_spec hfind)
    (fun m hm => Nat.find_min hfind hm)]
  rcases Nat.eq_zero_or_pos (Nat.find hfind) with h | h
  · exact absurd (h ▸ Nat.find_spec hfind) (by simpa using hq)
  · exact h

/-- The `squaredError` loop accumulates exactly the sum of the per-sample
contributions. -/
theorem squaredErrorAux_eq_sum (c : Canvas α) (peg1 peg2 : IPeg α) (n k : ℕ) :
    squaredErrorAux c peg1 peg2 n k =
      ∑ i ∈ Finset.range k,
        (127 - (sampleCanvasData c (samplePoint peg1 peg2 n i) + 0.5 * LINE_OPACITY * 255)) := by
  induction k with
  | zero => simp [squaredErrorAux]
  | succ k ih => rw [squaredErrorAux, ih, Finset.sum_range_succ]

/-- Accumulator `(bestScore, candidates)` update for one eligible candidate:
a strictly greater score resets the candidate list, an equal score appends,
a lower score is dropped. -/
def updateCandidates {β : Type} (score : α) (candidate : β)
    (acc : α × List β) : α × List β :=
  if score > acc.1 then (score, [candidate])
  else if score = acc.1 then (acc.1, acc.2 ++ [candidate])
  else acc

/-- The ordered pairs `(pegs[i], pegs[j])` with `i < j`, in the enumeration
order of the two nested loops of `computeBestStartingThread`. -/
def allPegPairs {β : Type} : List β → List (β × β)
  | [] => []
  | p :: rest => rest.map (fun q => (p, q)) ++ allPegPairs rest

/-- `computeBestStartingThread()`: scan every pair of distinct pegs that is
not too close, keep the best-scoring ones, pick one at random (`null` when
no candidate exists). -/
def computeBestStartingThread (c : Canvas α) (pegs : List (IPeg α))
    (tooClose : IPeg α → IPeg α → Bool) (k : ℕ) : Option (IThread α) :=
  let final := (allPegPairs pegs).foldl
    (fun acc pr =>
      if tooClose pr.1 pr.2 then acc
      else updateCandidates (computeThreadPotential c pr.1 pr.2) ⟨pr.1, pr.2⟩ acc)
    (MIN_SAFE_NUMBER, [])
  randomItem final.2 k

/-- `computeBestNextPeg(currentPeg)`: scan every peg not too close to the
current one, keep the best-scoring ones, pick one at random (`null` when no
candidate exists). -/
def computeBestNextPeg (c : Canvas α) (pegs : List (IPeg α))
    (tooClose : IPeg α → IPeg α → Bool) (currentPeg : IPeg α) (k : ℕ) : Option (IPeg α) :=
  let final := pegs.foldl
    (fun acc peg =>
      if tooClose currentPeg peg then acc
      else updateCandidates (computeThreadPotential c currentPeg peg) peg acc)
    (MIN_SAFE_NUMBER, [])
  randomItem final.2 k

/-- The rectangle shape's `arePegsTooClose`: the pegs share an exact x or an
exact y coordinate. -/
def rectangleTooClose (peg1 peg2 : IPeg α) : Bool :=
  decide (peg1.x = peg2.x) || decide (peg1.y = peg2.y)

/-- The circle shape's `arePegsTooClose`: angular distance (the smaller of
`|Δangle|` and its complement to `2π`) at most `TWO_PI / 16`. -/
noncomputable def circleTooClose (peg1 peg2 : IPeg ℝ) : Bool :=
  let absDeltaAngle := |peg1.angle - peg2.angle|
  let minAngle := min absDeltaAngle (2 * Real.pi - absDeltaAngle)
  decide (minAngle ≤ 2 * Real.pi / 16)

/-- The rectangle branch of `computePegs`: the four corners, then the
interior pegs of the top/bottom sides, then those of the left/right sides. -/
def computeRectanglePegs (width height : ℕ) (pegsSpacing : α) : List (IPeg α) :=
  let maxX : α := (width : α) - 1
  let maxY : α := (height : α) - 1
  let corners : List (IPeg α) := [⟨0, 0, 0⟩, ⟨maxX, 0, 0⟩, ⟨maxX, maxY, 0⟩, ⟨0, maxY, 0⟩]
  let nbPegsPerWidth : ℕ := ⌈(width : α) / pegsSpacing⌉₊
  let sideW := (List.range (nbPegsPerWidth - 1)).flatMap fun i =>
    let x := maxX * ((((i + 1 : ℕ)) : α) / (nbPegsPerWidth : α))
    [⟨x, 0, 0⟩, ⟨x, maxY, 0⟩]
  let nbPegsPerHeight : ℕ := ⌈(height : α) / pegsSpacing⌉₊
  let sideH := (List.range (nbPegsPerHeight - 1)).flatMap fun i =>
    let y := maxY * ((((i + 1 : ℕ)) : α) / (nbPegsPerHeight : α))
    [⟨0, y, 0⟩, ⟨maxX, y, 0⟩]
  corners ++ sideW ++ sideH

/-- The circle branch of `computePegs`:
`nbPegs = Math.ceil(0.5 * TWO_PI * maxSize / pegsSpacing)` pegs at angles
`iPeg * (TWO_PI / nbPegs)` on the ellipse inscribed in the domain. -/
noncomputable def computeCirclePegs (width height : ℕ) (pegsSpacing : ℝ) : List (IPeg ℝ) :=
  let maxSize : ℝ := max (width : ℝ) (height : ℝ)
  let nbPegs : ℕ := ⌈0.5 * (2 * Real.pi) * maxSize / pegsSpacing⌉₊
  let baseDeltaAngle : ℝ := 2 * Real.pi / (nbPegs : ℝ)
  (List.range nbPegs).map fun (iPeg : ℕ) =>
    let angle := (iPeg : ℝ) * baseDeltaAngle
    ⟨0.5 * (width : ℝ) * (1 + Real.cos angle),
     0.5 * (height : ℝ) * (1 + Real.sin angle), angle⟩

/-- `EShape` from `parameters.ts`. -/
inductive EShape
  | RECTANGLE
  | CIRCLE

/-- `computePegs()`: the peg list together with the `arePegsTooClose`
predicate the same branch assigns  (the source stores the predicate in a
field; here they are returned as a pair). -/
noncomputable def computePegs (shape : EShape) (width height : ℕ)
    (pegsSpacing : ℝ) : List (IPeg ℝ) × (IPeg ℝ → IPeg ℝ → Bool) :=
  match shape with
  | .RECTANGLE => (computeRectanglePegs width height pegsSpacing, rectangleTooClose)
  | .CIRCLE => (computeCirclePegs width height pegsSpacing, circleTooClose)

/-- The mutable fields of `ThreadComputer` that the planner reads and
writes: the target, the layout (`pegs` and its `arePegsTooClose`
predicate), the thread path and the hidden canvas. -/
structure State (α : Type) where
  targetNbSegments : ℕ
  pegs : List (IPeg α)
  threadPegs : List (IPeg α)
  tooClose : IPeg α → IPeg α → Bool
  canvas : Canvas α

/-- `get nbSegments()`: `threadPegs.length > 1 ? threadPegs.length - 1 : 0`. -/
def nbSegments (st : State α) : ℕ :=
  if st.threadPegs.length > 1 then st.threadPegs.length - 1 else 0

/-- `computeThread()`. `draw` abstracts `drawThreadOnHiddenCanvas` (the
browser's canvas line rasterization, applied to the canvas after the new
peg is pushed). When no candidate exists, `randomItem` returns `null` and
the source dereferences it (`startingThread.peg1` on the first step;
`peg2.x` inside the stroke drawing on a later step, after `null` was pushed
onto the path): both faults are modelled as `none`; so is the out-of-bounds
read `threadPegs[length - 1]` on an empty path, unreachable under the
branch guard. -/
def computeThread (draw : Canvas α → IPeg α → IPeg α → Canvas α)
    (st : State α) (k : ℕ) : Option (State α) :=
  if st.threadPegs.length = 0 then
    match computeBestStartingThread st.canvas st.pegs st.tooClose k with
    | none => none
    | some startingThread =>
      some { st with
        threadPegs := st.threadPegs ++ [startingThread.peg1, startingThread.peg2],
        canvas := draw st.canvas startingThread.peg1 startingThread.peg2 }
  else
    match st.threadPegs.getLast? with
    | none => none
    | some lastPeg =>
      match computeBestNextPeg st.canvas st.pegs st.tooClose lastPeg k with
      | none => none
      | some nextPeg =>
        some { st with
          threadPegs := st.threadPegs ++ [nextPeg],
          canvas := draw st.canvas lastPeg nextPeg }

/-- `Parameters` (the global configuration object), restricted to the
fields the planner reads. -/
structure Parameters (α : Type) where
  nbLines : ℕ
  shape : EShape
  pegsSpacing : α
  invertColors : Bool

/-- The per-pixel preprocessing formula of `resetHiddenCanvas`:
`(r + g + b) / 3 / 2`, or `128 - (r + g + b) / 3 / 2` with inverted
colors. -/
def computeAdjustedValue (invertColors : Bool) (r g b : α) : α :=
  if invertColors then 128 - (r + g + b) / 3 / 2 else (r + g + b) / 3 / 2

/-- The pixel rewrite loop of `resetHiddenCanvas`: every pixel's three
color channels are replaced by its adjusted value (the alpha channel and
out-of-range indices stay). `image` is the canvas as drawn from the source
image (the browser's resampling, an input here). -/
def resetCanvasData (invertColors : Bool) (image : Canvas α) : Canvas α :=
  { image with data := fun idx =>
      if 0 ≤ idx ∧ idx < 4 * ((image.width : ℤ) * (image.height : ℤ)) ∧ idx % 4 < 3 then
        (computeAdjustedValue invertColors
          (image.data (4 * (idx / 4))) (image.data (4 * (idx / 4) + 1))
          (image.data (4 * (idx / 4) + 2)))
      else image.data idx }

/-- `reset()`: re-read the configuration, rebuild the peg layout, clear the
path and reinitialize the hidden canvas from the source image. -/
noncomputable def reset (params : Parameters ℝ) (image : Canvas ℝ) : State ℝ :=
  let pc := computePegs params.shape image.width image.height params.pegsSpacing
  { targetNbSegments := params.nbLines
    pegs := pc.1
    threadPegs := []
    tooClose := pc.2
    canvas := resetCanvasData params.invertColors image }

/-- The `ThreadComputer` constructor: shape and spacing are taken from the
constructor arguments, the target starts at 0, the canvas is initialized
exactly as `reset` does. -/
noncomputable def initialState (invertColors : Bool) (image : Canvas ℝ)
    (pegsShape : EShape) (pegsSpacing : ℝ) : State ℝ :=
  let pc := computePegs pegsShape image.width image.height pegsSpacing
  { targetNbSegments := 0
    pegs := pc.1
    threadPegs := []
    tooClose := pc.2
    canvas := resetCanvasData invertColors image }

/-- The `while` loop of `computeNextThreads`: keep stepping while the
segment count is below the target. The wall-clock budget
(`performance.now() - start < maxMillisecondsTaken`) is modelled by `fuel`,
the number of iterations the budget allows; `ks` supplies the random draws. -/
def computeNextThreadsLoop (draw : Canvas α → IPeg α → IPeg α → Canvas α)
    (ks : ℕ → ℕ) : ℕ → State α → Option (State α)
  | 0, st => some st
  | fuel + 1, st =>
    if nbSegments st < st.targetNbSegments then
      match computeThread draw st (ks fuel) with
      | none => none
      | some st' => computeNextThreadsLoop draw ks fuel st'
    else some st

/-- `computeNextThreads(maxMillisecondsTaken)`: reset if too many segments
are already drawn, adopt `Parameters.nbLines` as the target, grow while the
budget lasts, and report whether the target was reached. -/
noncomputable def computeNextThreads (params : Parameters ℝ) (image : Canvas ℝ)
    (draw : Canvas ℝ → IPeg ℝ → IPeg ℝ → Canvas ℝ) (ks : ℕ → ℕ) (fuel : ℕ)
    (st : State ℝ) : Option (State ℝ × Bool) :=
  let st1 := if params.nbLines < nbSegments st then reset params image else st
  let st2 := { st1 with targetNbSegments := params.nbLines }
  match computeNextThreadsLoop draw ks fuel st2 with
  | none => none
  | some st' => some (st', decide (params.nbLines ≤ nbSegments st'))

theorem computeCirclePegs_mem {W H : ℕ} {s : ℝ} {p : IPeg ℝ}
    (hp : p ∈ computeCirclePegs W H s) :
    p.x = 0.5 * (W : ℝ) * (1 + Real.cos p.angle) ∧
      p.y = 0.5 * (H : ℝ) * (1 + Real.sin p.angle) := by
  simp only [computeCirclePegs, List.mem_map, List.mem_range] at hp
  obtain ⟨i, -, rfl⟩ := hp
  exact ⟨rfl, rfl⟩

/-- C9: both proximity predicates are symmetric, and a peg paired with
itself is always too close; the rectangle predicate holds iff the pegs
share an exact x-coordinate or an exact y-coordinate, and the circle
predicate holds iff the angular distance `min |Δθ| (2π - |Δθ|)` is at most
`π / 8`. -/
theorem arePegsTooClose_symm_refl_char :
    (∀ a b : IPeg ℝ, rectangleTooClose a b = rectangleTooClose b a)
    ∧ (∀ a : IPeg ℝ, rectangleTooClose a a = true)
    ∧ (∀ a b : IPeg ℝ, rectangleTooClose a b = true ↔ (a.x = b.x ∨ a.y = b.y))
    ∧ (∀ a b : IPeg ℝ, circleTooClose a b = circleTooClose b a)
    ∧ (∀ a : IPeg ℝ, circleTooClose a a = true)
    ∧ (∀ a b : IPeg ℝ, circleTooClose a b = true ↔
        min |a.angle - b.angle| (2 * Real.pi - |a.angle - b.angle|) ≤ Real.pi / 8) := by
  refine ⟨?_, ?_, ?_, ?_, ?_, ?_⟩
  · intro a b
    simp only [rectangleTooClose]
    rw [decide_eq_decide.mpr (eq_comm (a := a.x) (b := b.x)),
      decide_eq_decide.mpr (eq_comm (a := a.y) (b := b.y))]
  · intro a
    simp [rectangleTooClose]
  · intro a b
    simp [rectangleTooClose]
  · intro a b
    simp only [circleTooClose]
    rw [abs_sub_comm]
  · intro a
    simp only [circleTooClose, sub_self, abs_zero, decide_eq_true_eq]
    exact le_trans (min_le_left _ _) (by positivity)
  · intro a b
    simp only [circleTooClose, decide_eq_true_eq]
    rw [show (2 * Real.pi / 16 : ℝ) = Real.pi / 8 from by ring]

/-- C6: a pair of pegs that the proximity predicate accepts is at strictly
positive squared distance, hence the sample count `⌈d⌉` of the score is at
least 1 and the mean is a division by a nonzero count: for the rectangle
predicate this holds for every pair of pegs, for the circle predicate for
every pair of pegs of a circle layout (on a nonempty domain). -/
theorem accepted_pair_positive_distance :
    (∀ a b : IPeg ℝ, rectangleTooClose a b = false →
      0 < (b.x - a.x) ^ 2 + (b.y - a.y) ^ 2 ∧ 1 ≤ nbSamples a b)
    ∧ (∀ (W H : ℕ) (s : ℝ), 1 ≤ W → 1 ≤ H →
      ∀ a ∈ computeCirclePegs W H s, ∀ b ∈ computeCirclePegs W H s,
        circleTooClose a b = false →
          0 < (b.x - a.x) ^ 2 + (b.y - a.y) ^ 2 ∧ 1 ≤ nbSamples a b) := by
  constructor
  · intro a b hab
    simp only [rectangleTooClose, Bool.or_eq_false_iff, decide_eq_false_iff_not] at hab
    have hd : 0 < (b.x - a.x) ^ 2 + (b.y - a.y) ^ 2 := by
      have hx : b.x - a.x ≠ 0 := sub_ne_zero.mpr (Ne.symm hab.1)
      have := sq_pos_of_ne_zero hx
      nlinarith [sq_nonneg (b.y - a.y)]
    exact ⟨hd, one_le_sqrtCeil hd⟩
  · intro W H s hW hH a ha b hb hab
    simp only [circleTooClose, decide_eq_false_iff_not, not_le, lt_min_iff] at hab
    obtain ⟨h1, h2⟩ := hab
    have hπ : (0 : ℝ) < Real.pi := Real.pi_pos
    have habs_pos : 0 < |a.angle - b.angle| := lt_trans (by positivity) h1
    have habs_lt : |a.angle - b.angle| < 2 * Real.pi := by linarith
    obtain ⟨hax, hay⟩ := computeCirclePegs_mem ha
    obtain ⟨hbx, hby⟩ := computeCirclePegs_mem hb
    have hd : 0 < (b.x - a.x) ^ 2 + (b.y - a.y) ^ 2 := by
      rcases lt_or_eq_of_le (by positivity :
          (0 : ℝ) ≤ (b.x - a.x) ^ 2 + (b.y - a.y) ^ 2) with h | h
      · exact h
      exfalso
      have hsx : (b.x - a.x) ^ 2 = 0 :=
        le_antisymm (by nlinarith [sq_nonneg (b.y - a.y)]) (sq_nonneg _)
      have hsy : (b.y - a.y) ^ 2 = 0 :=
        le_antisymm (by nlinarith [sq_nonneg (b.x - a.x)]) (sq_nonneg _)
      have hx0 : b.x = a.x := by
        have := sq_eq_zero_iff.mp hsx; linarith
      have hy0 : b.y = a.y := by
        have := sq_eq_zero_iff.mp hsy; linarith
      have hW0 : (W : ℝ) ≠ 0 := by
        have : (1 : ℝ) ≤ (W : ℝ) := by exact_mod_cast hW
        linarith
      have hH0 : (H : ℝ) ≠ 0 := by
        have : (1 : ℝ) ≤ (H : ℝ) := by exact_mod_cast hH
        linarith
      have hxx : 0.5 * (W : ℝ) * (1 + Real.cos b.angle)
          = 0.5 * (W : ℝ) * (1 + Real.cos a.angle) := by
        rw [← hax, ← hbx]; exact hx0
      have hyy : 0.5 * (H : ℝ) * (1 + Real.sin b.angle)
          = 0.5 * (H : ℝ) * (1 + Real.sin a.angle) := by
        rw [← hay, ← hby]; exact hy0
      have hcos : Real.cos a.angle = Real.cos b.angle := by
        have h2 : (W : ℝ) * (1 + Real.cos b.angle) = (W : ℝ) * (1 + Real.cos a.angle) := by
          linear_combination 2 * hxx
        have := mul_left_cancel₀ hW0 h2
        linarith
      have hsin : Real.sin a.angle = Real.sin b.angle := by
        have h2 : (H : ℝ) * (1 + Real.sin b.angle) = (H : ℝ) * (1 + Real.sin a.angle) := by
          linear_combination 2 * hyy
        have := mul_left_cancel₀ hH0 h2
        linarith
      have hcos1 : Real.cos (a.angle - b.angle) = 1 := by
        rw [Real.cos_sub, hcos, hsin]
        linear_combination Real.sin_sq_add_cos_sq b.angle
      have hzero : a.angle - b.angle = 0 := by
        rcases abs_lt.mp habs_lt with ⟨hl, hr⟩
        exact (Real.cos_eq_one_iff_of_lt_of_lt hl hr).mp hcos1
      rw [hzero, abs_zero] at habs_pos
      exact lt_irrefl 0 habs_pos
    exact ⟨hd, one_le_sqrtCeil hd⟩

/-- C1: for two pegs at Euclidean distance `d > 0`, the score of
`computeThreadPotential` is the mean, over `N = ⌈d⌉` strictly-interior
sample points `p1 + (p2 - p1)·(i+1)/(N+1)`, of the contribution
`127 - (v + 0.5·LINE_OPACITY·255)` where `v` is the bilinearly-sampled
value at that point and `LINE_OPACITY = 0.512 / 8`. -/
theorem computeThreadPotential_eq_mean (c : Canvas ℝ) (p1 p2 : IPeg ℝ) (N : ℕ)
    (hd : 0 < Real.sqrt ((p2.x - p1.x) ^ 2 + (p2.y - p1.y) ^ 2))
    (hN : N = ⌈Real.sqrt ((p2.x - p1.x) ^ 2 + (p2.y - p1.y) ^ 2)⌉₊) :
    computeThreadPotential c p1 p2 =
      (∑ i ∈ Finset.range N,
        (127 - (sampleCanvasData c
            ⟨p1.x + (p2.x - p1.x) * (((i : ℝ) + 1) / ((N : ℝ) + 1)),
             p1.y + (p2.y - p1.y) * (((i : ℝ) + 1) / ((N : ℝ) + 1))⟩
          + 0.5 * LINE_OPACITY * 255))) / (N : ℝ)
      ∧ (LINE_OPACITY : ℝ) = 0.512 / 8 := by
  have hnb : nbSamples p1 p2 = N := by
    rw [nbSamples, sqrtCeil_eq_ceil_sqrt _ (by positivity), hN]
  refine ⟨?_, rfl⟩
  rw [computeThreadPotential, hnb, squaredErrorAux_eq_sum]
  rfl

def cWitness : Canvas ℝ := ⟨8, 8, fun _ => 0⟩

def pegA : IPeg ℝ := ⟨0, 0, 0⟩

def pegB : IPeg ℝ := ⟨3, 4, 0⟩

/-- Witness for C1 at the pegs `(0,0)` and `(3,4)` (distance 5, five
samples). -/
theorem computeThreadPotential_eq_mean_witness :
    computeThreadPotential cWitness pegA pegB =
      (∑ i ∈ Finset.range 5,
        (127 - (sampleCanvasData cWitness
            ⟨pegA.x + (pegB.x - pegA.x) * (((i : ℝ) + 1) / (((5 : ℕ) : ℝ) + 1)),
             pegA.y + (pegB.y - pegA.y) * (((i : ℝ) + 1) / (((5 : ℕ) : ℝ) + 1))⟩
          + 0.5 * LINE_OPACITY * 255))) / ((5 : ℕ) : ℝ)
      ∧ (LINE_OPACITY : ℝ) = 0.512 / 8 := by
  have hsq : ((pegB.x - pegA.x) ^ 2 + (pegB.y - pegA.y) ^ 2 : ℝ) = 25 := by
    norm_num [pegA, pegB]
  have hs5 : Real.sqrt ((pegB.x - pegA.x) ^ 2 + (pegB.y - pegA.y) ^ 2) = 5 := by
    rw [hsq, show (25 : ℝ) = 5 ^ 2 by norm_num, Real.sqrt_sq (by norm_num)]
  exact computeThreadPotential_eq_mean cWitness pegA pegB 5
    (by rw [hs5]; norm_num)
    (by rw [hs5]; norm_num)

theorem computeRectanglePegs_length (W H : ℕ) (s : ℝ) :
    (computeRectanglePegs W H s).length
      = 4 + 2 * (⌈(W : ℝ) / s⌉₊ - 1) + 2 * (⌈(H : ℝ) / s⌉₊ - 1) := by
  simp only [computeRectanglePegs, List.length_append, List.length_flatMap,
    Function.comp_def, List.length_cons, List.length_nil, List.map_const',
    List.sum_replicate, List.length_range, smul_eq_mul]
  omega

theorem computeRectanglePegs_mem_iff (W H : ℕ) (s : ℝ) (p : IPeg ℝ) :
    p ∈ computeRectanglePegs W H s ↔
      (p = ⟨0, 0, 0⟩ ∨ p = ⟨(W : ℝ) - 1, 0, 0⟩ ∨ p = ⟨(W : ℝ) - 1, (H : ℝ) - 1, 0⟩
        ∨ p = ⟨0, (H : ℝ) - 1, 0⟩)
      ∨ (∃ i : ℕ, 1 ≤ i ∧ i < ⌈(W : ℝ) / s⌉₊ ∧
          (p = ⟨((W : ℝ) - 1) * ((i : ℝ) / (⌈(W : ℝ) / s⌉₊ : ℝ)), 0, 0⟩
            ∨ p = ⟨((W : ℝ) - 1) * ((i : ℝ) / (⌈(W : ℝ) / s⌉₊ : ℝ)), (H : ℝ) - 1, 0⟩))
      ∨ (∃ j : ℕ, 1 ≤ j ∧ j < ⌈(H : ℝ) / s⌉₊ ∧
          (p = ⟨0, ((H : ℝ) - 1) * ((j : ℝ) / (⌈(H : ℝ) / s⌉₊ : ℝ)), 0⟩
            ∨ p = ⟨(W : ℝ) - 1, ((H : ℝ) - 1) * ((j : ℝ) / (⌈(H : ℝ) / s⌉₊ : ℝ)), 0⟩)) := by
  simp only [computeRectanglePegs, List.mem_append, List.mem_flatMap, List.mem_range,
    List.mem_cons, List.not_mem_nil, or_false]
  constructor
  · rintro (((h | h | h | h) | ⟨i, hi, h | h⟩) | ⟨i, hi, h | h⟩)
    · exact Or.inl (Or.inl h)
    · exact Or.inl (Or.inr (Or.inl h))
    · exact Or.inl (Or.inr (Or.inr (Or.inl h)))
    · exact Or.inl (Or.inr (Or.inr (Or.inr h)))
    · exact Or.inr (Or.inl ⟨i + 1, by omega, by omega, Or.inl h⟩)
    · exact Or.inr (Or.inl ⟨i + 1, by omega, by omega, Or.inr h⟩)
    · exact Or.inr (Or.inr ⟨i + 1, by omega, by omega, Or.inl h⟩)
    · exact Or.inr (Or.inr ⟨i + 1, by omega, by omega, Or.inr h⟩)
  · rintro ((h | h | h | h) | ⟨j, hj1, hj2, h | h⟩ | ⟨j, hj1, hj2, h | h⟩)
    · exact Or.inl (Or.inl (Or.inl h))
    · exact Or.inl (Or.inl (Or.inr (Or.inl h)))
    · exact Or.inl (Or.inl (Or.inr (Or.inr (Or.inl h))))
    · exact Or.inl (Or.inl (Or.inr (Or.inr (Or.inr h))))
    · refine Or.inl (Or.inr ⟨j - 1, by omega, Or.inl ?_⟩)
      rw [show j - 1 + 1 = j by omega]; exact h
    · refine Or.inl (Or.inr ⟨j - 1, by omega, Or.inr ?_⟩)
      rw [show j - 1 + 1 = j by omega]; exact h
    · refine Or.inr ⟨j - 1, by omega, Or.inl ?_⟩
      rw [show j - 1 + 1 = j by omega]; exact h
    · refine Or.inr ⟨j - 1, by omega, Or.inr ?_⟩
      rw [show j - 1 + 1 = j by omega]; exact h

/-- C4: the rectangle layout is exactly the four corners
`(0,0), (W-1,0), (W-1,H-1), (0,H-1)` plus `2·(⌈W/s⌉-1) + 2·(⌈H/s⌉-1)`
interior side pegs at fractional indices `1..count-1` along each side, and
every peg's coordinates lie inside `[0, W-1] × [0, H-1]`. -/
theorem rectangleLayout_spec (W H : ℕ) (s : ℝ) (hW : 1 ≤ W) (hH : 1 ≤ H)
    (hs : 0 < s) :
    (computeRectanglePegs W H s).length
        = 4 + 2 * (⌈(W : ℝ) / s⌉₊ - 1) + 2 * (⌈(H : ℝ) / s⌉₊ - 1)
    ∧ (∀ p ∈ computeRectanglePegs W H s,
        0 ≤ p.x ∧ p.x ≤ (W : ℝ) - 1 ∧ 0 ≤ p.y ∧ p.y ≤ (H : ℝ) - 1)
    ∧ (∀ p : IPeg ℝ, p ∈ computeRectanglePegs W H s ↔
        (p = ⟨0, 0, 0⟩ ∨ p = ⟨(W : ℝ) - 1, 0, 0⟩ ∨ p = ⟨(W : ℝ) - 1, (H : ℝ) - 1, 0⟩
          ∨ p = ⟨0, (H : ℝ) - 1, 0⟩)
        ∨ (∃ i : ℕ, 1 ≤ i ∧ i < ⌈(W : ℝ) / s⌉₊ ∧
            (p = ⟨((W : ℝ) - 1) * ((i : ℝ) / (⌈(W : ℝ) / s⌉₊ : ℝ)), 0, 0⟩
              ∨ p = ⟨((W : ℝ) - 1) * ((i : ℝ) / (⌈(W : ℝ) / s⌉₊ : ℝ)), (H : ℝ) - 1, 0⟩))
        ∨ (∃ j : ℕ, 1 ≤ j ∧ j < ⌈(H : ℝ) / s⌉₊ ∧
            (p = ⟨0, ((H : ℝ) - 1) * ((j : ℝ) / (⌈(H : ℝ) / s⌉₊ : ℝ)), 0⟩
              ∨ p = ⟨(W : ℝ) - 1, ((H : ℝ) - 1) * ((j : ℝ) / (⌈(H : ℝ) / s⌉₊ : ℝ)), 0⟩))) := by
  have hW1 : (1 : ℝ) ≤ (W : ℝ) := by exact_mod_cast hW
  have hH1 : (1 : ℝ) ≤ (H : ℝ) := by exact_mod_cast hH
  have hfrac : ∀ (M : ℝ) (j nb : ℕ), 1 ≤ j → j < nb → 0 ≤ M →
      0 ≤ M * ((j : ℝ) / (nb : ℝ)) ∧ M * ((j : ℝ) / (nb : ℝ)) ≤ M := by
    intro M j nb hj1 hj2 hM
    have hnb : (0 : ℝ) < (nb : ℝ) := by
      have : 0 < nb := by omega
      exact_mod_cast this
    have hjr : (j : ℝ) ≤ (nb : ℝ) := by exact_mod_cast Nat.le_of_lt hj2
    have hq0 : 0 ≤ (j : ℝ) / (nb : ℝ) := by positivity
    have hq1 : (j : ℝ) / (nb : ℝ) ≤ 1 := by
      rw [div_le_one hnb]; exact hjr
    exact ⟨mul_nonneg hM hq0, by nlinarith⟩
  refine ⟨computeRectanglePegs_length W H s, ?_, computeRectanglePegs_mem_iff W H s⟩
  intro p hp
  rw [computeRectanglePegs_mem_iff W H s p] at hp
  rcases hp with (h | h | h | h) | ⟨i, hi1, hi2, h | h⟩ | ⟨j, hj1, hj2, h | h⟩ <;>
    subst h <;> dsimp only
  · exact ⟨le_refl 0, by linarith, le_refl 0, by linarith⟩
  · exact ⟨by linarith, le_refl _, le_refl 0, by linarith⟩
  · exact ⟨by linarith, le_refl _, by linarith, le_refl _⟩
  · exact ⟨le_refl 0, by linarith, by linarith, le_refl _⟩
  · obtain ⟨h0, h1⟩ := hfrac ((W : ℝ) - 1) i ⌈(W : ℝ) / s⌉₊ hi1 hi2 (by linarith)
    exact ⟨h0, h1, le_refl 0, by linarith⟩
  · obtain ⟨h0, h1⟩ := hfrac ((W : ℝ) - 1) i ⌈(W : ℝ) / s⌉₊ hi1 hi2 (by linarith)
    exact ⟨h0, h1, by linarith, le_refl _⟩
  · obtain ⟨h0, h1⟩ := hfrac ((H : ℝ) - 1) j ⌈(H : ℝ) / s⌉₊ hj1 hj2 (by linarith)
    exact ⟨le_refl 0, by linarith, h0, h1⟩
  · obtain ⟨h0, h1⟩ := hfrac ((H : ℝ) - 1) j ⌈(H : ℝ) / s⌉₊ hj1 hj2 (by linarith)
    exact ⟨by linarith, le_refl _, h0, h1⟩

/-- Witness for C4 (the spec's scenario: 256×256 domain, spacing 32,
`4 + 2·7 + 2·7 = 32` pegs). -/
theorem rectangleLayout_spec_witness :
    (computeRectanglePegs 256 256 (32 : ℝ)).length = 32 := by
  have h := (rectangleLayout_spec 256 256 32 (by norm_num) (by norm_num)
    (by norm_num)).1
  rw [h, show ((256 : ℕ) : ℝ) / 32 = 8 by norm_num]
  norm_num

theorem computeCirclePegs_length (W H : ℕ) (s : ℝ) :
    (computeCirclePegs W H s).length = ⌈Real.pi * max (W : ℝ) (H : ℝ) / s⌉₊ := by
  simp only [computeCirclePegs, List.length_map, List.length_range]
  rw [show 0.5 * (2 * Real.pi) * (max (W : ℝ) (H : ℝ)) / s
    = Real.pi * max (W : ℝ) (H : ℝ) / s from by ring]

theorem computeCirclePegs_get? (W H : ℕ) (s : ℝ) (i : ℕ)
    (hi : i < (computeCirclePegs W H s).length) :
    (computeCirclePegs W H s).get? i = some
      ⟨0.5 * (W : ℝ) * (1 + Real.cos ((i : ℝ) *
          (2 * Real.pi / ((computeCirclePegs W H s).length : ℝ)))),
       0.5 * (H : ℝ) * (1 + Real.sin ((i : ℝ) *
          (2 * Real.pi / ((computeCirclePegs W H s).length : ℝ)))),
       (i : ℝ) * (2 * Real.pi / ((computeCirclePegs W H s).length : ℝ))⟩ := by
  have hlen : (computeCirclePegs W H s).length
      = ⌈0.5 * (2 * Real.pi) * max (W : ℝ) (H : ℝ) / s⌉₊ := by
    simp [computeCirclePegs]
  rw [hlen] at hi ⊢
  simp only [computeCirclePegs]
  rw [List.get?_eq_getElem?, List.getElem?_map, List.getElem?_range (by simpa using hi)]
  rfl

/-- C5: the circle layout has exactly `⌈π·max(W,H)/s⌉` pegs; the i-th peg
has angle `i·(2π/nbPegs)` and position `(W/2·(1+cos θ), H/2·(1+sin θ))`;
consecutive pegs differ in angle by exactly `2π/nbPegs`; every peg is at
distance at most `0.5·max(W,H)` from the domain center `(W/2, H/2)`. -/
theorem circleLayout_spec (W H : ℕ) (s : ℝ) (hs : 0 < s) :
    (computeCirclePegs W H s).length = ⌈Real.pi * max (W : ℝ) (H : ℝ) / s⌉₊
    ∧ (∀ i : ℕ, i < (computeCirclePegs W H s).length →
        (computeCirclePegs W H s).get? i = some
          ⟨0.5 * (W : ℝ) * (1 + Real.cos ((i : ℝ) *
              (2 * Real.pi / ((computeCirclePegs W H s).length : ℝ)))),
           0.5 * (H : ℝ) * (1 + Real.sin ((i : ℝ) *
              (2 * Real.pi / ((computeCirclePegs W H s).length : ℝ)))),
           (i : ℝ) * (2 * Real.pi / ((computeCirclePegs W H s).length : ℝ))⟩)
    ∧ (∀ (i : ℕ) (p q : IPeg ℝ), (computeCirclePegs W H s).get? i = some p →
        (computeCirclePegs W H s).get? (i + 1) = some q →
        q.angle - p.angle = 2 * Real.pi / ((computeCirclePegs W H s).length : ℝ))
    ∧ (∀ p ∈ computeCirclePegs W H s,
        Real.sqrt ((p.x - (W : ℝ) / 2) ^ 2 + (p.y - (H : ℝ) / 2) ^ 2)
          ≤ 0.5 * max (W : ℝ) (H : ℝ)) := by
  refine ⟨computeCirclePegs_length W H s, computeCirclePegs_get? W H s, ?_, ?_⟩
  · intro i p q hp hq
    have hi : i < (computeCirclePegs W H s).length := by
      have := List.get?_eq_some.mp hp
      exact this.choose
    have hi1 : i + 1 < (computeCirclePegs W H s).length := by
      have := List.get?_eq_some.mp hq
      exact this.choose
    have hp' := computeCirclePegs_get? W H s i hi
    have hq' := computeCirclePegs_get? W H s (i + 1) hi1
    rw [hp] at hp'
    rw [hq] at hq'
    have hpe := Option.some.inj hp'
    have hqe := Option.some.inj hq'
    rw [hpe, hqe]
    push_cast
    ring
  · intro p hp
    simp only [computeCirclePegs, List.mem_map, List.mem_range] at hp
    obtain ⟨i, -, rfl⟩ := hp
    have hW : (0 : ℝ) ≤ (W : ℝ) := Nat.cast_nonneg W
    have hH : (0 : ℝ) ≤ (H : ℝ) := Nat.cast_nonneg H
    have hWM : (W : ℝ) ≤ max (W : ℝ) (H : ℝ) := le_max_left _ _
    have hHM : (H : ℝ) ≤ max (W : ℝ) (H : ℝ) := le_max_right _ _
    have hM : (0 : ℝ) ≤ 0.5 * max (W : ℝ) (H : ℝ) := by
      have := le_trans hW hWM
      linarith
    set θ : ℝ := (i : ℝ) * (2 * Real.pi /
      ((⌈0.5 * (2 * Real.pi) * max (W : ℝ) (H : ℝ) / s⌉₊ : ℕ) : ℝ)) with hθ
    rw [Real.sqrt_le_left hM]
    have hc := Real.sin_sq_add_cos_sq θ
    have hc1 : Real.cos θ ^ 2 ≤ 1 := by nlinarith [sq_nonneg (Real.sin θ)]
    have hs1 : Real.sin θ ^ 2 ≤ 1 := by nlinarith [sq_nonneg (Real.cos θ)]
    have e1 : (0.5 * (W : ℝ) * (1 + Real.cos θ) - (W : ℝ) / 2) ^ 2
        = 0.25 * (W : ℝ) ^ 2 * Real.cos θ ^ 2 := by ring
    have e2 : (0.5 * (H : ℝ) * (1 + Real.sin θ) - (H : ℝ) / 2) ^ 2
        = 0.25 * (H : ℝ) ^ 2 * Real.sin θ ^ 2 := by ring
    dsimp only
    rw [e1, e2]
    have hW2 : (W : ℝ) ^ 2 ≤ max (W : ℝ) (H : ℝ) ^ 2 := by nlinarith
    have hH2 : (H : ℝ) ^ 2 ≤ max (W : ℝ) (H : ℝ) ^ 2 := by nlinarith
    nlinarith [sq_nonneg (Real.cos θ), sq_nonneg (Real.sin θ),
      mul_le_mul_of_nonneg_right hW2 (sq_nonneg (Real.cos θ)),
      mul_le_mul_of_nonneg_right hH2 (sq_nonneg (Real.sin θ))]

/-- Witness for C5 at a 4×4 domain with spacing 100. -/
theorem circleLayout_spec_witness :
    (computeCirclePegs 4 4 (100 : ℝ)).length
      = ⌈Real.pi * max ((4 : ℕ) : ℝ) ((4 : ℕ) : ℝ) / 100⌉₊ :=
  (circleLayout_spec 4 4 100 (by norm_num)).1

theorem computeThread_length (draw : Canvas α → IPeg α → IPeg α → Canvas α)
    (st st' : State α) (k : ℕ) (h : computeThread draw st k = some st') :
    (st.threadPegs.length = 0 → st'.threadPegs.length = 2)
    ∧ (st.threadPegs.length ≠ 0 →
        st'.threadPegs.length = st.threadPegs.length + 1) := by
  by_cases hz : st.threadPegs.length = 0
  · rw [computeThread, if_pos hz] at h
    cases hbs : computeBestStartingThread st.canvas st.pegs st.tooClose k with
    | none => rw [hbs] at h; exact absurd h (by simp)
    | some t =>
      rw [hbs] at h
      obtain rfl := Option.some.inj h
      refine ⟨fun _ => ?_, fun hnz => absurd hz hnz⟩
      simp [List.length_append, hz]
  · rw [computeThread, if_neg hz] at h
    cases hbl : st.threadPegs.getLast? with
    | none =>
      rw [List.getLast?_eq_none_iff] at hbl
      exact absurd (by rw [hbl]; rfl) hz
    | some lastPeg =>
      rw [hbl] at h
      dsimp only at h
      cases hbn : computeBestNextPeg st.canvas st.pegs st.tooClose lastPeg k with
      | none => rw [hbn] at h; simp at h
      | some nextPeg =>
        rw [hbn] at h
        dsimp only at h
        obtain rfl := Option.some.inj h
        refine ⟨fun hz0 => absurd hz0 hz, fun _ => ?_⟩
        simp [List.length_append]

/-- C3 (amended): after every successful planning step the segment count
increases by exactly 1; the path length increases by exactly 1 except on
the very first step from an empty path, which appends both endpoints of
the starting thread at once (length 0 to 2). -/
theorem step_growth_amended (draw : Canvas α → IPeg α → IPeg α → Canvas α)
    (st st' : State α) (k : ℕ) (h : computeThread draw st k = some st') :
    nbSegments st' = nbSegments st + 1
    ∧ st'.threadPegs.length
        = (if st.threadPegs.length = 0 then 2 else st.threadPegs.length + 1) := by
  obtain ⟨h0, h1⟩ := computeThread_length draw st st' k h
  by_cases hz : st.threadPegs.length = 0
  · refine ⟨?_, by rw [if_pos hz]; exact h0 hz⟩
    simp only [nbSegments, h0 hz, hz]
    norm_num
  · refine ⟨?_, by rw [if_neg hz]; exact h1 hz⟩
    simp only [nbSegments, h1 hz]
    split_ifs <;> omega

/-- C10: between public operations the path length is never exactly 1:
it is 0 after construction and after reset, the first successful step
appends two pegs at once, every later successful step appends exactly one,
and a successful step from a path of length other than 1 always yields a
path of at least 2 pegs. -/
theorem path_length_never_one :
    (∀ (inv : Bool) (image : Canvas ℝ) (shape : EShape) (sp : ℝ),
        (initialState inv image shape sp).threadPegs.length = 0)
    ∧ (∀ (params : Parameters ℝ) (image : Canvas ℝ),
        (reset params image).threadPegs.length = 0)
    ∧ (∀ (draw : Canvas ℝ → IPeg ℝ → IPeg ℝ → Canvas ℝ) (st st' : State ℝ) (k : ℕ),
        computeThread draw st k = some st' → st.threadPegs.length = 0 →
          st'.threadPegs.length = 2)
    ∧ (∀ (draw : Canvas ℝ → IPeg ℝ → IPeg ℝ → Canvas ℝ) (st st' : State ℝ) (k : ℕ),
        computeThread draw st k = some st' → st.threadPegs.length ≠ 0 →
          st'.threadPegs.length = st.threadPegs.length + 1)
    ∧ (∀ (draw : Canvas ℝ → IPeg ℝ → IPeg ℝ → Canvas ℝ) (st st' : State ℝ) (k : ℕ),
        computeThread draw st k = some st' → st.threadPegs.length ≠ 1 →
          st'.threadPegs.length ≠ 1 ∧ 2 ≤ st'.threadPegs.length) := by
  refine ⟨fun _ _ _ _ => rfl, fun _ _ => rfl, ?_, ?_, ?_⟩
  · exact fun draw st st' k h => (computeThread_length draw st st' k h).1
  · exact fun draw st st' k h => (computeThread_length draw st st' k h).2
  · intro draw st st' k h hne
    obtain ⟨h0, h1⟩ := computeThread_length draw st st' k h
    by_cases hz : st.threadPegs.length = 0
    · rw [h0 hz]; omega
    · rw [h1 hz]; omega

theorem computeNextThreadsLoop_at_target (draw : Canvas α → IPeg α → IPeg α → Canvas α)
    (ks : ℕ → ℕ) (fuel : ℕ) (st : State α)
    (h : ¬ nbSegments st < st.targetNbSegments) :
    computeNextThreadsLoop draw ks fuel st = some st := by
  cases fuel with
  | zero => rfl
  | succ fuel => rw [computeNextThreadsLoop, if_neg h]

/-- C7: when the segment count already equals the configured target,
`computeNextThreads` returns `true` immediately, performs no planning step
and leaves the whole state (the Luminance Field included) unchanged,
whatever the time budget. -/
theorem advance_at_target_noop (params : Parameters ℝ) (image : Canvas ℝ)
    (draw : Canvas ℝ → IPeg ℝ → IPeg ℝ → Canvas ℝ) (ks : ℕ → ℕ) (fuel : ℕ)
    (st : State ℝ) (h1 : nbSegments st = params.nbLines)
    (h2 : st.targetNbSegments = params.nbLines) :
    computeNextThreads params image draw ks fuel st = some (st, true) := by
  have hst2 : ({ st with targetNbSegments := params.nbLines } : State ℝ) = st := by
    cases st
    simp only at h2
    rw [← h2]
  simp only [computeNextThreads, if_neg (by omega : ¬ params.nbLines < nbSegments st),
    hst2, computeNextThreadsLoop_at_target draw ks fuel st (by omega)]
  rw [decide_eq_true (by omega : params.nbLines ≤ nbSegments st)]

def imageW : Canvas ℝ := ⟨2, 2, fun _ => 0⟩

def paramsW : Parameters ℝ := ⟨1, EShape.RECTANGLE, 1, false⟩

def drawIdR : Canvas ℝ → IPeg ℝ → IPeg ℝ → Canvas ℝ := fun c _ _ => c

def stAtTarget : State ℝ :=
  ⟨1, [], [⟨0, 0, 0⟩, ⟨1, 0, 0⟩], fun _ _ => false, imageW⟩

/-- Witness for C7: a state with 1 segment drawn and target 1. -/
theorem advance_at_target_noop_witness :
    computeNextThreads paramsW imageW drawIdR (fun _ => 0) 7 stAtTarget
      = some (stAtTarget, true) :=
  advance_at_target_noop paramsW imageW drawIdR (fun _ => 0) 7 stAtTarget
    (by simp [nbSegments, stAtTarget, paramsW]) rfl

/-- C8: when the segment count strictly exceeds the configured target,
`computeNextThreads` performs a full reset — empty path (segment count
transiently 0), rebuilt peg layout and predicate, reinitialized Luminance
Field — and only then grows toward the target. -/
theorem advance_overshoot_resets (params : Parameters ℝ) (image : Canvas ℝ)
    (draw : Canvas ℝ → IPeg ℝ → IPeg ℝ → Canvas ℝ) (ks : ℕ → ℕ) (fuel : ℕ)
    (st : State ℝ) (h : params.nbLines < nbSegments st) :
    computeNextThreads params image draw ks fuel st
      = (match computeNextThreadsLoop draw ks fuel (reset params image) with
        | none => none
        | some st' => some (st', decide (params.nbLines ≤ nbSegments st')))
    ∧ (reset params image).threadPegs = []
    ∧ nbSegments (reset params image) = 0
    ∧ (reset params image).pegs
        = (computePegs params.shape image.width image.height params.pegsSpacing).1
    ∧ (reset params image).tooClose
        = (computePegs params.shape image.width image.height params.pegsSpacing).2
    ∧ (reset params image).canvas = resetCanvasData params.invertColors image := by
  refine ⟨?_, rfl, rfl, rfl, rfl, rfl⟩
  simp only [computeNextThreads, if_pos h]
  rfl

def stOvershoot : State ℝ :=
  ⟨1, [], [⟨0, 0, 0⟩, ⟨1, 0, 0⟩, ⟨0, 1, 0⟩], fun _ _ => false, imageW⟩

/-- Witness for C8: 2 segments drawn, target lowered to 1. -/
theorem advance_overshoot_resets_witness :
    nbSegments (reset paramsW imageW) = 0
    ∧ computeNextThreads paramsW imageW drawIdR (fun _ => 0) 0 stOvershoot
      = (match computeNextThreadsLoop drawIdR (fun _ => 0) 0 (reset paramsW imageW) with
        | none => none
        | some st' => some (st', decide (paramsW.nbLines ≤ nbSegments st'))) := by
  have h := advance_overshoot_resets paramsW imageW drawIdR (fun _ => 0) 0 stOvershoot
    (by simp [nbSegments, stOvershoot, paramsW])
  exact ⟨h.2.2.1, h.1⟩

def drawIdQ : Canvas ℚ → IPeg ℚ → IPeg ℚ → Canvas ℚ := fun c _ _ => c

def canvasQ : Canvas ℚ := ⟨8, 8, fun _ => 0⟩

def pegAQ : IPeg ℚ := ⟨0, 0, 0⟩

def pegBQ : IPeg ℚ := ⟨3, 4, 0⟩

def stEmptyQ : State ℚ := ⟨5, [pegAQ, pegBQ], [], rectangleTooClose, canvasQ⟩

def stTwoQ : State ℚ := ⟨5, [pegAQ, pegBQ], [pegAQ, pegBQ], rectangleTooClose, canvasQ⟩

def stThreeQ : State ℚ :=
  ⟨5, [pegAQ, pegBQ], [pegAQ, pegBQ, pegAQ], rectangleTooClose, canvasQ⟩

theorem sampleCanvasData_canvasQ (pt : IPoint ℚ) : sampleCanvasData canvasQ pt = 0 := by
  simp [sampleCanvasData, sampleCanvasPixel, canvasQ, mix]

theorem potential_canvasQ (p1 p2 : IPeg ℚ)
    (h : (p2.x - p1.x) ^ 2 + (p2.y - p1.y) ^ 2 = 25) :
    computeThreadPotential canvasQ p1 p2 = 2971 / 25 := by
  have hnb : nbSamples p1 p2 = 5 := by
    rw [nbSamples, h]
    apply sqrtCeil_eq_of (t := 5)
    · norm_num
    · intro m hm
      interval_cases m <;> norm_num
  rw [computeThreadPotential, hnb, squaredErrorAux_eq_sum]
  have hsummand : ∀ i ∈ Finset.range 5,
      (127 - (sampleCanvasData canvasQ (samplePoint p1 p2 5 i)
        + 0.5 * LINE_OPACITY * 255) : ℚ) = 2971 / 25 := by
    intro i _
    rw [sampleCanvasData_canvasQ]
    norm_num [LINE_OPACITY]
  rw [Finset.sum_congr rfl hsummand]
  norm_num

theorem tooCloseQ_AB : rectangleTooClose pegAQ pegBQ = false := by
  norm_num [rectangleTooClose, pegAQ, pegBQ]

theorem tooCloseQ_BA : rectangleTooClose pegBQ pegAQ = false := by
  norm_num [rectangleTooClose, pegAQ, pegBQ]

theorem tooCloseQ_BB : rectangleTooClose pegBQ pegBQ = true := by
  simp [rectangleTooClose]

theorem bestStartQ_eval :
    computeBestStartingThread canvasQ [pegAQ, pegBQ] rectangleTooClose 0
      = some ⟨pegAQ, pegBQ⟩ := by
  rw [computeBestStartingThread]
  rw [show allPegPairs [pegAQ, pegBQ] = [(pegAQ, pegBQ)] from rfl]
  rw [List.foldl_cons, List.foldl_nil]
  rw [show rectangleTooClose (pegAQ, pegBQ).1 (pegAQ, pegBQ).2 = false from tooCloseQ_AB]
  rw [if_neg (by simp)]
  rw [show computeThreadPotential canvasQ (pegAQ, pegBQ).1 (pegAQ, pegBQ).2 = 2971 / 25
    from potential_canvasQ _ _ (by norm_num [pegAQ, pegBQ])]
  rw [updateCandidates, if_pos (by norm_num [MIN_SAFE_NUMBER])]
  rw [randomItem]
  simp

theorem bestNextQ_eval :
    computeBestNextPeg canvasQ [pegAQ, pegBQ] rectangleTooClose pegBQ 0
      = some pegAQ := by
  rw [computeBestNextPeg]
  rw [List.foldl_cons]
  rw [tooCloseQ_BA, if_neg (by simp)]
  rw [show computeThreadPotential canvasQ pegBQ pegAQ = 2971 / 25
    from potential_canvasQ _ _ (by norm_num [pegAQ, pegBQ])]
  rw [updateCandidates, if_pos (by norm_num [MIN_SAFE_NUMBER])]
  rw [List.foldl_cons, tooCloseQ_BB, if_pos rfl, List.foldl_nil]
  rw [randomItem]
  simp

theorem stepQ_from_empty : computeThread drawIdQ stEmptyQ 0 = some stTwoQ := by
  rw [computeThread, if_pos (show stEmptyQ.threadPegs.length = 0 from rfl)]
  rw [show computeBestStartingThread stEmptyQ.canvas stEmptyQ.pegs stEmptyQ.tooClose 0
    = some ⟨pegAQ, pegBQ⟩ from bestStartQ_eval]
  rfl

theorem stepQ_from_two : computeThread drawIdQ stTwoQ 0 = some stThreeQ := by
  rw [computeThread, if_neg (by norm_num [stTwoQ])]
  rw [show stTwoQ.threadPegs.getLast? = some pegBQ from rfl]
  dsimp only
  rw [show computeBestNextPeg stTwoQ.canvas stTwoQ.pegs stTwoQ.tooClose pegBQ 0
    = some pegAQ from bestNextQ_eval]
  rfl

/-- Counterexample to C3 as stated: the very first successful planning step
takes the path from 0 pegs to 2 pegs (both endpoints of the starting
thread), not to 1. -/
theorem step_growth_counterexample :
    stEmptyQ.threadPegs.length = 0
    ∧ computeThread drawIdQ stEmptyQ 0 = some stTwoQ
    ∧ stTwoQ.threadPegs.length = 2
    ∧ stTwoQ.threadPegs.length ≠ stEmptyQ.threadPegs.length + 1 :=
  ⟨rfl, stepQ_from_empty, rfl, by decide⟩

/-- Witness for C3 (amended) at a concrete continuation step. -/
theorem step_growth_amended_witness :
    nbSegments stThreeQ = nbSegments stTwoQ + 1
    ∧ stThreeQ.threadPegs.length
        = (if stTwoQ.threadPegs.length = 0 then 2 else stTwoQ.threadPegs.length + 1) :=
  step_growth_amended drawIdQ stTwoQ stThreeQ 0 stepQ_from_two

theorem allPegPairs_singleton {β : Type} (l : List β) (h : l.length = 1) :
    allPegPairs l = [] := by
  cases l with
  | nil => simp at h
  | cons x xs =>
    have hxs : xs = [] := by
      rw [← List.length_eq_zero]
      simpa using h
    subst hxs
    rfl

def imageC : Canvas ℝ := ⟨256, 256, fun _ => 0⟩

/-- C2 fails in the code: on a layout with a single peg (CIRCLE shape,
256×256 domain, spacing 2000) the first planning step finds no candidate,
`randomItem` returns `null`, and `computeThread` dereferences it
(`startingThread.peg1`, a TypeError) instead of reporting a stall and
leaving the path alone — modelled here by the step faulting with `none`
for every random draw. -/
theorem no_candidate_step_faults :
    (initialState false imageC EShape.CIRCLE 2000).pegs.length = 1
    ∧ ∀ (draw : Canvas ℝ → IPeg ℝ → IPeg ℝ → Canvas ℝ) (k : ℕ),
        computeThread draw (initialState false imageC EShape.CIRCLE 2000) k = none := by
  have hlen : (initialState false imageC EShape.CIRCLE 2000).pegs.length = 1 := by
    show (computeCirclePegs 256 256 2000).length = 1
    rw [computeCirclePegs_length, max_self]
    rw [Nat.ceil_eq_iff (by norm_num)]
    constructor
    · push_cast
      positivity
    · push_cast
      nlinarith [Real.pi_le_four]
  refine ⟨hlen, fun draw k => ?_⟩
  rw [computeThread,
    if_pos (show (initialState false imageC EShape.CIRCLE 2000).threadPegs.length = 0
      from rfl),
    computeBestStartingThread, allPegPairs_singleton _ hlen]
  rfl

end ThreadComputer

